import Mathlib

/-!
Verification of the VoxAlpha answer-verification pipeline.

This file is a shallow embedding, in Lean 4, of the matching and audio
pre-processing logic of the VoxAlpha pronunciation trainer:

* `normalizeText`, `levenshteinDistance`, `checkAnswerSingle` and the
  multi-candidate matching loop of `checkAnswerWithCities` (the main
  application file, `src/unnamed/part_000`);
* the padding, gain and resampling steps of the audio pipeline
  (`src/lib/whisper-wrapper.js`);
* the recording start/stop guards (`startRecording` / `stopRecording`).

Strings are modelled as `List Char`; JavaScript IEEE-754 numbers are
modelled as exact rationals (`ℚ`).  A JavaScript expression that produces
`NaN` (such as `0 / 0`, or reading past the end of a typed array) is
modelled as `Option.none`, since every JS comparison with `NaN` is false.
-/

attribute [local semireducible] Rat.mul Rat.inv Rat.add Rat.sub Rat.ofScientific

set_option maxRecDepth 8192

/-! ## Text normalization (`normalizeText`, part_000 lines 636–645) -/

/-- Model of JavaScript `String.prototype.toLowerCase`, per character, on
the character range relevant to this application: ASCII upper-case letters
map to their lower-case forms, the German letters `Ä`, `Ö`, `Ü`, `ẞ` map to
`ä`, `ö`, `ü`, `ß`; every other character is left unchanged. -/
def jsLower (c : Char) : Char :=
  if 'A' ≤ c ∧ c ≤ 'Z' then Char.ofNat (c.toNat + 32)
  else if c = 'Ä' then 'ä'
  else if c = 'Ö' then 'ö'
  else if c = 'Ü' then 'ü'
  else if c = 'ẞ' then 'ß'
  else c

/-- Whitespace characters removed by JavaScript `String.prototype.trim`
(the ones relevant here: ASCII blanks plus no-break space and BOM). -/
def isWS (c : Char) : Bool :=
  c ∈ [' ', '\t', '\n', '\r', '\x0b', '\x0c', '\u00A0', '\uFEFF']

/-- Model of `String.prototype.trim`: drop leading and trailing
whitespace. -/
def trimList (s : List Char) : List Char :=
  ((s.dropWhile isWS).reverse.dropWhile isWS).reverse

/-- Model of `String.prototype.replace` with a global single-character
pattern: every occurrence of `a` is replaced by the string `t`. -/
def replaceAll (a : Char) (t : List Char) : List Char → List Char
  | [] => []
  | c :: cs => (if c = a then t else [c]) ++ replaceAll a t cs

/-- Characters kept by the final `replace(/[^a-z0-9]/g, '')` step. -/
def isAllowed (c : Char) : Bool :=
  ('a' ≤ c && c ≤ 'z') || ('0' ≤ c && c ≤ '9')

/-- Embedding of `normalizeText` (part_000 lines 636–645):
lowercase, trim, fold `ä`/`ö`/`ü` to their base letters, fold `ß` to
`ss`, then strip every character outside `[a-z0-9]`. -/
def normalizeText (s : List Char) : List Char :=
  (replaceAll 'ß' ['s', 's']
    (replaceAll 'ü' ['u']
      (replaceAll 'ö' ['o']
        (replaceAll 'ä' ['a']
          (trimList (s.map jsLower)))))).filter isAllowed

/-! ## Levenshtein distance (`levenshteinDistance`, part_000 lines 471–494)

The source fills a `(m+1) × (n+1)` table row by row:
`dp[i][0] = i`, `dp[0][j] = j`, and
`dp[i][j] = dp[i-1][j-1]` when the characters agree, otherwise
`1 + min(dp[i-1][j], dp[i][j-1], dp[i-1][j-1])`.
We embed the same computation: `levRow` produces row `i` from row `i-1`. -/

/-- Tail of a DP row: given the current character `x` of `str1`, the
remaining characters `ys` of `str2`, the entry `diag = dp[i-1][j-1]`, the
entry `left = dp[i][j-1]` just produced, and the remaining entries
`dp[i-1][j], dp[i-1][j+1], …` of the previous row, produce
`dp[i][j], dp[i][j+1], …`. -/
def levRowAux (x : Char) : List Char → ℕ → ℕ → List ℕ → List ℕ
  | [], _, _, _ => []
  | _ :: _, _, _, [] => []
  | y :: ys, diag, left, up :: prev =>
    let cur := if x = y then diag else 1 + min (min left up) diag
    cur :: levRowAux x ys up cur prev

/-- One step of the DP: row `i` of the table from row `i-1`. -/
def levRow (x : Char) (ys : List Char) (prev : List ℕ) : List ℕ :=
  match prev with
  | [] => []
  | p0 :: rest => (p0 + 1) :: levRowAux x ys p0 (p0 + 1) rest

/-- Embedding of `levenshteinDistance` (part_000 lines 471–494). -/
def levenshteinDistance (str1 str2 : List Char) : ℕ :=
  let row0 := List.range (str2.length + 1)
  let final := str1.foldl (fun row x => levRow x str2 row) row0
  final.getLast?.getD 0


/-! ## Similarity scoring

`checkAnswerSingle` (part_000 lines 613–631) and the loop of
`checkAnswerWithCities` (lines 546–567) both compute
`similarity = 1 - distance / Math.max(len a, len b)`.  When both strings
are empty the denominator is `0` and the JS division yields `NaN`; we
model that case as `none`. -/

/-- Shared base-similarity expression (part_000 lines 548–550 and
614–616): `1 - distance / max(len a, len b)`, `none` when the
denominator is zero (JS `NaN`). -/
def baseSimilarityOpt (a b : List Char) : Option ℚ :=
  let distance := levenshteinDistance a b
  let maxLength := max a.length b.length
  if maxLength = 0 then none
  else some (1 - (distance : ℚ) / (maxLength : ℚ))

/-- Embedding of `checkAnswerSingle` (part_000 lines 613–631): accept iff
`similarity >= 0.7`.  A `NaN` similarity compares false in JS, hence
rejection. -/
def checkAnswerSingle (normalized expected : List Char) : Bool :=
  match baseSimilarityOpt normalized expected with
  | none => false
  | some s => decide ((7 / 10 : ℚ) ≤ s)

/-- Per-candidate similarity of the `checkAnswerWithCities` loop
(part_000 lines 546–559): normalize the city, take the base similarity,
subtract the length-bias penalty `0.05` per character of length
difference, cap at `1.0`.  `none` models the `NaN` case. -/
def simToCity (normalized city : List Char) : Option ℚ :=
  let normalizedCity := normalizeText city
  match baseSimilarityOpt normalized normalizedCity with
  | none => none
  | some base =>
    let lengthDiff := ((normalized.length : ℤ) - (normalizedCity.length : ℤ)).natAbs
    some (min 1 (base - (lengthDiff : ℚ) * (1 / 20)))

/-! ## Candidate reduction (part_000 lines 533–544) -/

/-- Filter of part_000 lines 536–539: keep the cities whose normalized
first character equals the expected (normalized) letter.  JavaScript
`charAt(0)` on the empty string returns the empty string, which is what
`List.take 1` gives on `[]`. -/
def filterByLeadingLetter (cities : List (List Char)) (expectedLetter : List Char) :
    List (List Char) :=
  cities.filter (fun city => normalizeText (city.take 1) = expectedLetter)

/-- Embedding of part_000 line 544: search the filtered list when it is
non-empty, otherwise fall back to the full city list. -/
def candidateReduction (cities : List (List Char)) (expectedLetter : List Char) :
    List (List Char) :=
  let candidateCities := filterByLeadingLetter cities expectedLetter
  if 0 < candidateCities.length then candidateCities else cities

/-! ## Best-match selection (part_000 lines 529–572) -/

/-- Embedding of the selection loop (part_000 lines 546–567).  State is
the pair `(bestMatches, bestSimilarity)`, initially `([], 0)`.  A
candidate with a strictly larger similarity resets the match list; one
with an equal similarity is appended; a `NaN` similarity (`none`) fails
both JS comparisons and is skipped. -/
def selectLoop (normalized : List Char) :
    List (List Char) → List (List Char) × ℚ → List (List Char) × ℚ
  | [], acc => acc
  | city :: rest, (bestMatches, bestSimilarity) =>
    match simToCity normalized city with
    | none => selectLoop normalized rest (bestMatches, bestSimilarity)
    | some s =>
      if bestSimilarity < s then selectLoop normalized rest ([city], s)
      else if s = bestSimilarity then
        selectLoop normalized rest (bestMatches ++ [city], bestSimilarity)
      else selectLoop normalized rest (bestMatches, bestSimilarity)

/-- Final `bestSimilarity` of the loop, started from `([], 0)`. -/
def bestSim (normalized : List Char) (cities : List (List Char)) : ℚ :=
  (selectLoop normalized cities ([], 0)).2

/-- Embedding of part_000 lines 570–572: the expected word if it is among
the best matches, otherwise `bestMatches[0]` (`none` when the list is
empty, i.e. JS `undefined`). -/
def selectBest (normalized : List Char) (cities : List (List Char))
    (expectedWord : List Char) : Option (List Char) :=
  let bestMatches := (selectLoop normalized cities ([], 0)).1
  if expectedWord ∈ bestMatches then some expectedWord else bestMatches.head?

/-! ## Audio pipeline (`src/lib/whisper-wrapper.js`) -/

/-- Embedding of the buffer-shaping part of `WhisperSTT.transcribe`
(whisper-wrapper.js lines 150–162): an empty buffer returns early
(modelled `none`: nothing is handed to the recognizer); a buffer shorter
than 16000 samples is zero-padded at the end to exactly 16000
(`new Float32Array(minSamples)` is zero-initialised and `set` copies the
input to offset 0); otherwise the buffer passes through unchanged. -/
def transcribeBuffer (audioData : List ℚ) : Option (List ℚ) :=
  if audioData.length = 0 then none
  else if audioData.length < 16000 then
    some (audioData ++ List.replicate (16000 - audioData.length) 0)
  else some audioData

/-- Peak absolute amplitude of a buffer (whisper-wrapper.js lines
462–468): a left fold keeping the running maximum of `Math.abs`,
starting from `0`. -/
def peakAbs (l : List ℚ) : ℚ :=
  l.foldl (fun m s => if |s| > m then |s| else m) 0

/-- Embedding of the quiet-signal gain step of `AudioProcessor.stopRecording`
(whisper-wrapper.js lines 472–479): when `0 < peak < 0.01`, every sample
is multiplied by `0.1 / peak`; otherwise the buffer is unchanged. -/
def applyGain (result : List ℚ) : List ℚ :=
  let mx := peakAbs result
  if mx < 1 / 100 ∧ 0 < mx then
    result.map (fun s => s * (1 / 10 / mx))
  else result

/-- JavaScript `Math.round`: `⌊x + 1/2⌋`. -/
def jsRound (x : ℚ) : ℤ := ⌊x + 1 / 2⌋

/-- One output sample of `AudioProcessor.resample` (whisper-wrapper.js
lines 507–518): the fractional source index is `i * ratio`; when the next
integer index is still inside the buffer the two neighbouring samples are
linearly interpolated, otherwise the sample at the floored index is
copied.  An out-of-bounds read (JS `undefined`, becoming `NaN` in the
typed array) is modelled as `none`. -/
def resampleEntry (samples : List ℚ) (ratio : ℚ) (i : ℕ) : Option ℚ :=
  let srcIndex : ℚ := (i : ℚ) * ratio
  let kI : ℤ := ⌊srcIndex⌋
  if kI < 0 then none
  else
    let k := kI.toNat
    let f : ℚ := srcIndex - (kI : ℚ)
    if k + 1 < samples.length then
      some (samples.getD k 0 * (1 - f) + samples.getD (k + 1) 0 * f)
    else if k < samples.length then some (samples.getD k 0)
    else none

/-- The output buffer of the resampling loop, entry by entry over the
given index list; `none` as soon as any entry is `none`. -/
def resampleBuild (samples : List ℚ) (ratio : ℚ) : List ℕ → Option (List ℚ)
  | [] => some []
  | i :: rest =>
    match resampleEntry samples ratio i, resampleBuild samples ratio rest with
    | some v, some vs => some (v :: vs)
    | _, _ => none

/-- Embedding of `AudioProcessor.resample` (whisper-wrapper.js lines
498–522): identity when the rates agree, otherwise a buffer of
`Math.round(length / ratio)` linearly interpolated samples with
`ratio = fromRate / toRate`.  A negative length (impossible for positive
rates) is modelled `none`, as `new Float32Array` would throw. -/
def resample (samples : List ℚ) (fromRate toRate : ℚ) : Option (List ℚ) :=
  if fromRate = toRate then some samples
  else
    let ratio := fromRate / toRate
    let n := jsRound ((samples.length : ℚ) / ratio)
    if n < 0 then none
    else resampleBuild samples ratio (List.range n.toNat)

/-! ## Recording state machine (part_000 lines 367–436)

`startRecording` returns immediately when `isRecording` is already set or
the audio processor was never initialised; otherwise it sets
`isRecording`.  `stopRecording` returns when `isRecording` is clear;
otherwise it clears `isRecording` at once and only then starts the
asynchronous evaluation (stop capture → transcribe → `checkAnswer`),
which we track with the `evaluating` flag; `evalDone` marks the verdict
being produced. -/

/-- Observable trial state: microphone availability, the `isRecording`
flag, and whether an evaluation (stop-to-verdict window) is in flight. -/
structure TrainerState where
  micReady : Bool
  isRecording : Bool
  evaluating : Bool
deriving DecidableEq

/-- Events driving the trial state. -/
inductive TrainerEvent
  | start
  | stop
  | evalDone
deriving DecidableEq

/-- Transition function modelled on the guards of `startRecording`
(part_000 lines 367–374) and `stopRecording` (lines 400–416). -/
def trainerStep (s : TrainerState) : TrainerEvent → TrainerState
  | .start =>
    if s.isRecording then s
    else if !s.micReady then s
    else { s with isRecording := true }
  | .stop =>
    if !s.isRecording then s
    else { s with isRecording := false, evaluating := true }
  | .evalDone => { s with evaluating := false }


/-! ## Helper lemmas about normalization -/

/-- Character order on `Char` agrees with the order of the code points. -/
theorem char_le_iff_toNat {a b : Char} : a ≤ b ↔ a.toNat ≤ b.toNat :=
  ⟨fun h => h, fun h => h⟩

/-- Permitted characters have code points in the `a`–`z` or `0`–`9`
ranges. -/
theorem isAllowed_toNat {c : Char} (h : isAllowed c = true) :
    (97 ≤ c.toNat ∧ c.toNat ≤ 122) ∨ (48 ≤ c.toNat ∧ c.toNat ≤ 57) := by
  unfold isAllowed at h
  simp only [Bool.or_eq_true, Bool.and_eq_true, decide_eq_true_eq] at h
  rcases h with ⟨h1, h2⟩ | ⟨h1, h2⟩
  · exact Or.inl ⟨char_le_iff_toNat.mp h1, char_le_iff_toNat.mp h2⟩
  · exact Or.inr ⟨char_le_iff_toNat.mp h1, char_le_iff_toNat.mp h2⟩

/-- Lower-casing fixes every permitted character. -/
theorem jsLower_of_isAllowed {c : Char} (h : isAllowed c = true) :
    jsLower c = c := by
  have h' := isAllowed_toNat h
  have hAZ : ¬('A' ≤ c ∧ c ≤ 'Z') := by
    rintro ⟨ha, hb⟩
    have ha' : 65 ≤ c.toNat := char_le_iff_toNat.mp ha
    have hb' : c.toNat ≤ 90 := char_le_iff_toNat.mp hb
    omega
  have h1 : ¬(c = 'Ä') := by rintro rfl; revert h'; decide
  have h2 : ¬(c = 'Ö') := by rintro rfl; revert h'; decide
  have h3 : ¬(c = 'Ü') := by rintro rfl; revert h'; decide
  have h4 : ¬(c = 'ẞ') := by rintro rfl; revert h'; decide
  unfold jsLower
  rw [if_neg hAZ, if_neg h1, if_neg h2, if_neg h3, if_neg h4]

/-- Permitted characters are not whitespace. -/
theorem isWS_of_isAllowed {c : Char} (h : isAllowed c = true) :
    isWS c = false := by
  have h' := isAllowed_toNat h
  cases hw : isWS c with
  | false => rfl
  | true =>
    exfalso
    unfold isWS at hw
    simp only [List.mem_cons, List.not_mem_nil, or_false, decide_eq_true_eq] at hw
    rcases hw with rfl | rfl | rfl | rfl | rfl | rfl | rfl | rfl <;> revert h' <;> decide

/-- Permitted characters are none of the four folded German letters. -/
theorem ne_umlaut_of_isAllowed {c : Char} (h : isAllowed c = true) :
    c ≠ 'ä' ∧ c ≠ 'ö' ∧ c ≠ 'ü' ∧ c ≠ 'ß' := by
  have h' := isAllowed_toNat h
  refine ⟨?_, ?_, ?_, ?_⟩ <;> rintro rfl <;> revert h' <;> decide

/-- Dropping a prefix with a predicate that holds nowhere is the
identity. -/
theorem dropWhile_eq_self_of_none {p : Char → Bool} :
    ∀ {s : List Char}, (∀ c ∈ s, p c = false) → s.dropWhile p = s
  | [], _ => rfl
  | c :: cs, h => by
    have hc : p c = false := h c (List.mem_cons_self c cs)
    simp [List.dropWhile, hc]

/-- Trimming a string with no whitespace is the identity. -/
theorem trimList_eq_self {s : List Char} (h : ∀ c ∈ s, isWS c = false) :
    trimList s = s := by
  unfold trimList
  rw [dropWhile_eq_self_of_none h]
  rw [dropWhile_eq_self_of_none (fun c hc => h c (List.mem_reverse.mp hc))]
  exact List.reverse_reverse s

/-- Replacement of a character that does not occur is the identity. -/
theorem replaceAll_eq_self {a : Char} {t : List Char} :
    ∀ {s : List Char}, (∀ c ∈ s, c ≠ a) → replaceAll a t s = s
  | [], _ => rfl
  | c :: cs, h => by
    have hc : c ≠ a := h c (List.mem_cons_self c cs)
    simp only [replaceAll, if_neg hc, List.singleton_append, List.cons.injEq, true_and]
    exact replaceAll_eq_self (fun d hd => h d (List.mem_cons_of_mem c hd))

/-- Mapping `jsLower` over an all-permitted string is the identity. -/
theorem map_jsLower_eq_self :
    ∀ {s : List Char}, (∀ c ∈ s, isAllowed c = true) → s.map jsLower = s
  | [], _ => rfl
  | c :: cs, h => by
    simp only [List.map_cons, List.cons.injEq]
    refine ⟨jsLower_of_isAllowed (h c (List.mem_cons_self c cs)), ?_⟩
    exact map_jsLower_eq_self (fun d hd => h d (List.mem_cons_of_mem c hd))

/-- Every character of a normalized string is permitted. -/
theorem normalizeText_isAllowed {s : List Char} :
    ∀ c ∈ normalizeText s, isAllowed c = true := by
  intro c hc
  unfold normalizeText at hc
  exact (List.mem_filter.mp hc).2

/-! ## Claim C6: the normalizer is idempotent -/

/-- C6: the text normalizer is idempotent: for every input string `x`,
`normalize(normalize(x)) = normalize(x)`. -/
theorem normalizeText_idempotent (s : List Char) :
    normalizeText (normalizeText s) = normalizeText s := by
  have hall := @normalizeText_isAllowed s
  set t := normalizeText s with ht
  show normalizeText t = t
  unfold normalizeText
  rw [map_jsLower_eq_self hall]
  rw [trimList_eq_self (fun c hc => isWS_of_isAllowed (hall c hc))]
  rw [replaceAll_eq_self (fun c hc => (ne_umlaut_of_isAllowed (hall c hc)).1)]
  rw [replaceAll_eq_self (fun c hc => (ne_umlaut_of_isAllowed (hall c hc)).2.1)]
  rw [replaceAll_eq_self (fun c hc => (ne_umlaut_of_isAllowed (hall c hc)).2.2.1)]
  rw [replaceAll_eq_self (fun c hc => (ne_umlaut_of_isAllowed (hall c hc)).2.2.2)]
  exact List.filter_eq_self.mpr hall

/-! ## Claim C1: closed-vocabulary acceptance of "alfa" vs "Alpha"

The claim asserts that the transcript `alfa` is accepted against the
expected answer `Alpha`.  In the code the normalized strings are `alfa`
and `alpha`, the Levenshtein distance between them is `2`, and the
similarity is `1 - 2/5 = 0.6`, which is strictly below the `0.7`
threshold, so the transcript is rejected. -/

/-- C1 counterexample: the closed-vocabulary policy REJECTS transcript
`"alfa"` against expected answer `"Alpha"` (similarity `0.6 < 0.7`),
contrary to the claim that it is accepted. -/
theorem checkAnswerSingle_alfa_rejected :
    checkAnswerSingle (normalizeText "alfa".data) (normalizeText "Alpha".data) = false ∧
      baseSimilarityOpt (normalizeText "alfa".data) (normalizeText "Alpha".data) =
        some (3 / 5) := by
  constructor <;> decide

/-- C1 amended: under the closed-vocabulary policy both transcripts are
REJECTED against expected answer `"Alpha"`: `"alfa"` has similarity
`0.6 < 0.7` and `"bravo"` has similarity `0 < 0.7`. -/
theorem checkAnswerSingle_alfa_bravo :
    checkAnswerSingle (normalizeText "alfa".data) (normalizeText "Alpha".data) = false ∧
      checkAnswerSingle (normalizeText "bravo".data) (normalizeText "Alpha".data) = false := by
  constructor <;> decide

/-! ## Claim C5: the base similarity formula

The claim asserts the denominator is `max(len a, len b, 1)`, floored at
`1`, so that two empty strings give similarity `1.0`.  The code uses
`Math.max(len a, len b)` with no floor: for two empty strings the
division is `0 / 0 = NaN` (modelled `none`) and the acceptance test
fails.  For every other pair the two formulas agree. -/

/-- C5 counterexample: on two empty strings the code's similarity is the
JS `NaN` (modelled `none`), not `1.0`, and the acceptance test fails. -/
theorem baseSimilarity_empty_empty :
    baseSimilarityOpt [] [] = none ∧ baseSimilarityOpt [] [] ≠ some 1 ∧
      checkAnswerSingle [] [] = false := by
  refine ⟨rfl, by decide, rfl⟩

/-- C5 amended: whenever at least one of the two normalized strings is
non-empty, the base similarity equals
`1 - distance / max(len a, len b, 1)` (the floor at `1` is then
redundant); when both are empty the code divides `0` by `0`, producing
`NaN` rather than `1.0`. -/
theorem baseSimilarity_formula (a b : List Char) (h : a ≠ [] ∨ b ≠ []) :
    baseSimilarityOpt a b =
      some (1 - (levenshteinDistance a b : ℚ) / (max (max a.length b.length) 1 : ℕ)) := by
  have hlen : 0 < max a.length b.length := by
    rcases h with h | h
    · exact lt_max_of_lt_left (List.length_pos.mpr h)
    · exact lt_max_of_lt_right (List.length_pos.mpr h)
  have hmax : max (max a.length b.length) 1 = max a.length b.length := by omega
  rw [hmax]
  unfold baseSimilarityOpt
  rw [if_neg (by omega)]

/-- Witness for `baseSimilarity_formula` at a concrete non-empty input. -/
theorem baseSimilarity_formula_witness :
    baseSimilarityOpt ['x'] [] =
      some (1 - (levenshteinDistance ['x'] [] : ℚ) / (max (max (['x'].length) ([] : List Char).length) 1 : ℕ)) :=
  baseSimilarity_formula ['x'] [] (Or.inl (by decide))

/-! ## Claim C3: candidate reduction -/

/-- C3: candidate reduction keeps the expected answer whenever the
expected answer is in the vocabulary and its normalized leading unit
equals the filter key; when the filtered set is empty the full
vocabulary is returned unmodified; hence the reduction never yields an
empty candidate set from a non-empty vocabulary. -/
theorem candidateReduction_spec (vocab : List (List Char)) (expected key : List Char) :
    (expected ∈ vocab → normalizeText (expected.take 1) = key →
      expected ∈ candidateReduction vocab key) ∧
    (filterByLeadingLetter vocab key = [] → candidateReduction vocab key = vocab) ∧
    (vocab ≠ [] → candidateReduction vocab key ≠ []) := by
  refine ⟨?_, ?_, ?_⟩
  · intro hmem hkey
    have hf : expected ∈ filterByLeadingLetter vocab key := by
      unfold filterByLeadingLetter
      exact List.mem_filter.mpr ⟨hmem, by simp [hkey]⟩
    unfold candidateReduction
    rw [if_pos (List.length_pos.mpr (List.ne_nil_of_mem hf))]
    exact hf
  · intro hempty
    unfold candidateReduction
    rw [hempty]
    rfl
  · intro hvocab
    unfold candidateReduction
    by_cases hlen : 0 < (filterByLeadingLetter vocab key).length
    · rw [if_pos hlen]
      exact List.ne_nil_of_length_pos hlen
    · rw [if_neg hlen]
      exact hvocab

/-- Witness for `candidateReduction_spec` at a concrete vocabulary: the
expected city `Bonn` survives the reduction keyed on letter `B`. -/
theorem candidateReduction_spec_witness :
    "Bonn".data ∈ candidateReduction ["Aachen".data, "Bonn".data] (normalizeText "B".data) ∧
      candidateReduction ([] : List (List Char)) "q".data = [] ∧
      candidateReduction ["Aachen".data, "Bonn".data] "q".data ≠ [] := by
  refine ⟨?_, ?_, ?_⟩
  · exact (candidateReduction_spec ["Aachen".data, "Bonn".data] "Bonn".data
      (normalizeText "B".data)).1 (by decide) (by decide)
  · exact (candidateReduction_spec [] "x".data "q".data).2.1 (by decide)
  · exact (candidateReduction_spec ["Aachen".data, "Bonn".data] "x".data "q".data).2.2
      (by decide)

/-! ## Claim C7: no recording during evaluation

The claim asserts that a new recording cannot start while a previous
attempt is in the stop-to-verdict (`EVALUATING`) window.  The code's only
guard is the `isRecording` flag, which `stopRecording` clears at once —
before the asynchronous evaluation runs — so a start signal arriving
during evaluation begins a new recording. -/

/-- C7 counterexample: from the idle state, the trace start → stop →
start reaches a state where the previous attempt is still evaluating
(`evaluating = true`, `isRecording = false` after the stop) and the
second start nevertheless begins a new recording, overlapping the
evaluation. -/
theorem trainerStep_start_during_evaluating :
    (trainerStep (trainerStep ⟨true, false, false⟩ .start) .stop).evaluating = true ∧
    (trainerStep (trainerStep ⟨true, false, false⟩ .start) .stop).isRecording = false ∧
    (trainerStep (trainerStep (trainerStep ⟨true, false, false⟩ .start) .stop) .start).isRecording = true ∧
    (trainerStep (trainerStep (trainerStep ⟨true, false, false⟩ .start) .stop) .start).evaluating = true := by
  refine ⟨rfl, rfl, rfl, rfl⟩

/-- C7 amended: the state machine forbids overlapping recordings — a
start signal is a no-op while `isRecording` is set — but it does not
forbid starting a new recording while a previous attempt is evaluating,
as `stopRecording` clears `isRecording` before the evaluation finishes. -/
theorem trainerStep_start_noop_while_recording (s : TrainerState)
    (h : s.isRecording = true) : trainerStep s .start = s := by
  unfold trainerStep
  rw [if_pos h]

/-- Witness for `trainerStep_start_noop_while_recording` at a concrete
recording state. -/
theorem trainerStep_start_noop_witness :
    trainerStep ⟨true, true, false⟩ .start = ⟨true, true, false⟩ :=
  trainerStep_start_noop_while_recording ⟨true, true, false⟩ rfl

/-! ## Claim C8: zero-padding of short captures -/

/-- Indexing anywhere into a replicated-zero list yields `0`. -/
theorem getD_replicate_zero (m i : ℕ) : (List.replicate m (0 : ℚ)).getD i 0 = 0 := by
  by_cases h : i < m
  · rw [List.getD_eq_getElem _ _ (by simpa using h)]
    exact List.getElem_replicate 0 _
  · exact List.getD_eq_default _ _ (by simpa using Nat.le_of_not_lt h)

/-- C8: every non-empty captured buffer shorter than the recognizer's
minimum of 16000 samples is padded to exactly 16000 samples; the first
`len(input)` samples are the input unchanged and every sample of the
padded tail is exactly zero. -/
theorem transcribeBuffer_pads (buf : List ℚ) (h0 : 0 < buf.length)
    (h1 : buf.length < 16000) :
    ∃ out, transcribeBuffer buf = some out ∧ out.length = 16000 ∧
      (∀ i, i < buf.length → out.getD i 0 = buf.getD i 0) ∧
      (∀ i, buf.length ≤ i → i < 16000 → out.getD i 0 = 0) := by
  refine ⟨buf ++ List.replicate (16000 - buf.length) 0, ?_, ?_, ?_, ?_⟩
  · unfold transcribeBuffer
    rw [if_neg (by omega), if_pos h1]
  · rw [List.length_append, List.length_replicate]
    omega
  · intro i hi
    exact List.getD_append _ _ _ _ hi
  · intro i hi1 hi2
    rw [List.getD_append_right _ _ _ _ hi1]
    exact getD_replicate_zero _ _

/-- Witness for `transcribeBuffer_pads` on a one-sample buffer. -/
theorem transcribeBuffer_pads_witness :
    ∃ out, transcribeBuffer [(1 : ℚ) / 2] = some out ∧ out.length = 16000 ∧
      (∀ i, i < [(1 : ℚ) / 2].length → out.getD i 0 = [(1 : ℚ) / 2].getD i 0) ∧
      (∀ i, [(1 : ℚ) / 2].length ≤ i → i < 16000 → out.getD i 0 = 0) :=
  transcribeBuffer_pads [(1 : ℚ) / 2] (by decide) (by decide)

/-! ## Claim C9: quiet-signal gain -/

/-- The fold step of `peakAbs` is the max of the accumulator and the
absolute value. -/
theorem peakAbs_step (m s : ℚ) : (if |s| > m then |s| else m) = max m |s| := by
  rcases le_or_lt |s| m with h | h
  · rw [if_neg (not_lt.mpr h), max_eq_left h]
  · rw [if_pos h, max_eq_right h.le]


/-- The peak fold is a fold of `max` over absolute values. -/
theorem peakAbs_eq_foldmax (l : List ℚ) (a : ℚ) :
    l.foldl (fun m s => if |s| > m then |s| else m) a =
      l.foldl (fun m s => max m |s|) a := by
  have hfun : (fun (m s : ℚ) => if |s| > m then |s| else m) =
      fun (m s : ℚ) => max m |s| := by
    funext m s
    exact peakAbs_step m s
  rw [hfun]

/-- The running-max fold only grows its accumulator. -/
theorem foldmax_le_self :
    ∀ (l : List ℚ) (a : ℚ), a ≤ l.foldl (fun m s => max m |s|) a
  | [], _ => le_rfl
  | x :: rest, a => by
    simp only [List.foldl_cons]
    exact le_trans (le_max_left a |x|) (foldmax_le_self rest (max a |x|))

/-- Every element of a buffer is bounded in absolute value by the
running-max fold. -/
theorem abs_le_foldmax :
    ∀ (l : List ℚ) (a : ℚ), ∀ s ∈ l, |s| ≤ l.foldl (fun m x => max m |x|) a
  | [], _, s, hs => absurd hs (List.not_mem_nil s)
  | x :: rest, a, s, hs => by
    simp only [List.foldl_cons]
    rcases List.mem_cons.mp hs with rfl | hs'
    · exact le_trans (le_max_right a |s|) (foldmax_le_self rest (max a |s|))
    · exact abs_le_foldmax rest (max a |x|) s hs'

/-- Scaling every sample by a non-negative gain scales the running-max
fold by the same gain. -/
theorem foldmax_map_scale (g : ℚ) (hg : 0 ≤ g) :
    ∀ (l : List ℚ) (a : ℚ),
      (l.map (fun s => s * g)).foldl (fun m s => max m |s|) (a * g) =
        l.foldl (fun m s => max m |s|) a * g
  | [], _ => rfl
  | s :: rest, a => by
    simp only [List.map_cons, List.foldl_cons]
    have habs : |s * g| = |s| * g := by rw [abs_mul, abs_of_nonneg hg]
    rw [habs, ← max_mul_of_nonneg _ _ hg]
    exact foldmax_map_scale g hg rest (max a |s|)

/-- The peak of a uniformly scaled buffer is the scaled peak. -/
theorem peakAbs_map_scale (l : List ℚ) (g : ℚ) (hg : 0 ≤ g) :
    peakAbs (l.map (fun s => s * g)) = peakAbs l * g := by
  unfold peakAbs
  rw [peakAbs_eq_foldmax, peakAbs_eq_foldmax]
  have := foldmax_map_scale g hg l 0
  rwa [zero_mul] at this

/-- Every element of a buffer is bounded in absolute value by its peak. -/
theorem abs_le_peakAbs (l : List ℚ) (s : ℚ) (hs : s ∈ l) : |s| ≤ peakAbs l := by
  unfold peakAbs
  rw [peakAbs_eq_foldmax]
  exact abs_le_foldmax l 0 s hs

/-- C9: a captured buffer whose peak absolute amplitude is nonzero and
below the quiet threshold `0.01` is scaled by the uniform gain
`0.1 / peak`; the adjusted buffer's peak is exactly the safe target
`0.1`, and no adjusted sample exceeds `1.0` in absolute value. -/
theorem applyGain_quiet (buf : List ℚ) (hpos : 0 < peakAbs buf)
    (hquiet : peakAbs buf < 1 / 100) :
    applyGain buf = buf.map (fun s => s * (1 / 10 / peakAbs buf)) ∧
      peakAbs (applyGain buf) = 1 / 10 ∧
      ∀ s ∈ applyGain buf, |s| ≤ 1 := by
  have hgain : (0 : ℚ) ≤ 1 / 10 / peakAbs buf := by positivity
  have heq : applyGain buf = buf.map (fun s => s * (1 / 10 / peakAbs buf)) := by
    unfold applyGain
    rw [if_pos ⟨hquiet, hpos⟩]
  have hpeak : peakAbs (applyGain buf) = 1 / 10 := by
    rw [heq, peakAbs_map_scale _ _ hgain]
    field_simp
    ring
  refine ⟨heq, hpeak, ?_⟩
  intro s hs
  have := abs_le_peakAbs (applyGain buf) s hs
  rw [hpeak] at this
  linarith

/-- Witness for `applyGain_quiet` on the spec's example buffer of peak
amplitude `0.005`. -/
theorem applyGain_quiet_witness :
    applyGain [(1 : ℚ) / 200] =
        [(1 : ℚ) / 200].map (fun s => s * (1 / 10 / peakAbs [(1 : ℚ) / 200])) ∧
      peakAbs (applyGain [(1 : ℚ) / 200]) = 1 / 10 ∧
      ∀ s ∈ applyGain [(1 : ℚ) / 200], |s| ≤ 1 :=
  applyGain_quiet [(1 : ℚ) / 200] (by decide) (by decide)

/-! ## Claim C10: the resampler preserves the sample range -/

/-- Reading inside the bounds of a list yields an element of the list. -/
theorem getD_mem_of_lt (l : List ℚ) (k : ℕ) (h : k < l.length) :
    l.getD k 0 ∈ l := by
  rw [List.getD_eq_getElem _ _ h]
  exact List.getElem_mem h

/-- One resampled output sample exists and stays in `[-1, 1]` provided
the source index falls inside the buffer and the buffer is in range. -/
theorem resampleEntry_bounds (samples : List ℚ) (ratio : ℚ) (i : ℕ)
    (hb : ∀ s ∈ samples, -1 ≤ s ∧ s ≤ 1)
    (hge : 0 ≤ (i : ℚ) * ratio)
    (hi : (i : ℚ) * ratio < samples.length) :
    ∃ v, resampleEntry samples ratio i = some v ∧ -1 ≤ v ∧ v ≤ 1 := by
  have hk0 : 0 ≤ ⌊(i : ℚ) * ratio⌋ := Int.floor_nonneg.mpr hge
  have hklen : ⌊(i : ℚ) * ratio⌋ < (samples.length : ℤ) := by
    have h1 : (⌊(i : ℚ) * ratio⌋ : ℚ) ≤ (i : ℚ) * ratio := Int.floor_le _
    exact_mod_cast lt_of_le_of_lt h1 hi
  have hkn : (⌊(i : ℚ) * ratio⌋).toNat < samples.length := by omega
  have hf0 : 0 ≤ (i : ℚ) * ratio - (⌊(i : ℚ) * ratio⌋ : ℚ) :=
    sub_nonneg.mpr (Int.floor_le _)
  have hf1 : (i : ℚ) * ratio - (⌊(i : ℚ) * ratio⌋ : ℚ) < 1 := by
    have := Int.lt_floor_add_one ((i : ℚ) * ratio)
    linarith
  simp only [resampleEntry]
  rw [if_neg (not_lt.mpr hk0)]
  by_cases hk1 : (⌊(i : ℚ) * ratio⌋).toNat + 1 < samples.length
  · rw [if_pos hk1]
    obtain ⟨ha1, ha2⟩ := hb _ (getD_mem_of_lt samples _ hkn)
    obtain ⟨hb1, hb2⟩ := hb _ (getD_mem_of_lt samples _ hk1)
    refine ⟨_, rfl, ?_, ?_⟩ <;> nlinarith
  · rw [if_neg hk1, if_pos hkn]
    obtain ⟨ha1, ha2⟩ := hb _ (getD_mem_of_lt samples _ hkn)
    exact ⟨_, rfl, ha1, ha2⟩

/-- The resampling loop succeeds and stays in range whenever every
requested entry does. -/
theorem resampleBuild_spec (samples : List ℚ) (ratio : ℚ) :
    ∀ idxs : List ℕ,
      (∀ i ∈ idxs, ∃ v, resampleEntry samples ratio i = some v ∧ -1 ≤ v ∧ v ≤ 1) →
      ∃ out, resampleBuild samples ratio idxs = some out ∧ ∀ v ∈ out, -1 ≤ v ∧ v ≤ 1
  | [], _ => ⟨[], rfl, by simp⟩
  | i :: rest, h => by
    obtain ⟨v, hv, hv1, hv2⟩ := h i (List.mem_cons_self i rest)
    obtain ⟨out, hout, hbnd⟩ :=
      resampleBuild_spec samples ratio rest (fun j hj => h j (List.mem_cons_of_mem i hj))
    refine ⟨v :: out, ?_, ?_⟩
    · simp only [resampleBuild, hv, hout]
    · intro w hw
      rcases List.mem_cons.mp hw with rfl | hw'
      · exact ⟨hv1, hv2⟩
      · exact hbnd w hw'

/-- C10: linear-interpolation resampling preserves the sample-range
invariant: for positive source and target rates and a buffer of samples
in `[-1, 1]`, the resampled buffer is produced (no out-of-range read)
and all its samples lie in `[-1, 1]` — each output sample is a copy of
an input sample or a convex combination of two adjacent input samples. -/
theorem resample_preserves_range (samples : List ℚ) (fromRate toRate : ℚ)
    (hf : 0 < fromRate) (ht : 0 < toRate)
    (hb : ∀ s ∈ samples, -1 ≤ s ∧ s ≤ 1) :
    ∃ out, resample samples fromRate toRate = some out ∧
      ∀ v ∈ out, -1 ≤ v ∧ v ≤ 1 := by
  unfold resample
  by_cases heq : fromRate = toRate
  · rw [if_pos heq]
    exact ⟨samples, rfl, hb⟩
  · rw [if_neg heq]
    have hr : 0 < fromRate / toRate := div_pos hf ht
    have hnn : 0 ≤ jsRound ((samples.length : ℚ) / (fromRate / toRate)) := by
      unfold jsRound
      apply Int.floor_nonneg.mpr
      positivity
    rw [if_neg (not_lt.mpr hnn)]
    apply resampleBuild_spec
    intro i hi
    have hi' : i < (jsRound ((samples.length : ℚ) / (fromRate / toRate))).toNat :=
      List.mem_range.mp hi
    apply resampleEntry_bounds samples _ i hb (by positivity)
    have h1 : (i : ℤ) + 1 ≤ jsRound ((samples.length : ℚ) / (fromRate / toRate)) := by
      omega
    have h2 : (jsRound ((samples.length : ℚ) / (fromRate / toRate)) : ℚ) ≤
        (samples.length : ℚ) / (fromRate / toRate) + 1 / 2 := by
      unfold jsRound
      exact Int.floor_le _
    have h3 : (i : ℚ) + 1 ≤
        (jsRound ((samples.length : ℚ) / (fromRate / toRate)) : ℚ) := by
      exact_mod_cast h1
    have h4 : (i : ℚ) ≤ (samples.length : ℚ) / (fromRate / toRate) - 1 / 2 := by
      linarith
    have h5 : (i : ℚ) * (fromRate / toRate) ≤
        ((samples.length : ℚ) / (fromRate / toRate) - 1 / 2) * (fromRate / toRate) :=
      mul_le_mul_of_nonneg_right h4 hr.le
    have h6 : ((samples.length : ℚ) / (fromRate / toRate) - 1 / 2) * (fromRate / toRate) =
        (samples.length : ℚ) - fromRate / toRate / 2 := by
      field_simp
      ring
    rw [h6] at h5
    linarith

/-- Witness for `resample_preserves_range`: downsampling a two-sample
in-range buffer from 32 kHz to 16 kHz. -/
theorem resample_preserves_range_witness :
    ∃ out, resample [(1 : ℚ) / 2, -(1 : ℚ) / 2] 32000 16000 = some out ∧
      ∀ v ∈ out, -1 ≤ v ∧ v ≤ 1 :=
  resample_preserves_range [(1 : ℚ) / 2, -(1 : ℚ) / 2] 32000 16000
    (by decide) (by decide) (by decide)

/-! ## Invariant of the best-match selection loop -/

/-- Invariant of `selectLoop`: starting from a state that faithfully
summarises an already-processed prefix `P` — the running maximum `best`
is non-negative, bounds every similarity seen so far, is attained on `P`
unless it is still the initial `0`, and `matches` is exactly the prefix's
candidates achieving `best` — the loop ends in a state with the same
properties for `P ++ cities`. -/
theorem selectLoop_inv (normalized : List Char) (cities : List (List Char)) :
    ∀ (P ms : List (List Char)) (best : ℚ),
      0 ≤ best →
      (∀ c ∈ P, ∀ v, simToCity normalized c = some v → v ≤ best) →
      ms = P.filter (fun c => simToCity normalized c = some best) →
      (best = 0 ∨ ∃ c ∈ P, simToCity normalized c = some best) →
      ∃ m b, selectLoop normalized cities (ms, best) = (m, b) ∧ 0 ≤ b ∧
        (∀ c ∈ P ++ cities, ∀ v, simToCity normalized c = some v → v ≤ b) ∧
        m = (P ++ cities).filter (fun c => simToCity normalized c = some b) ∧
        (b = 0 ∨ ∃ c ∈ P ++ cities, simToCity normalized c = some b) := by
  induction cities with
  | nil =>
    intro P ms best hb0 hbound hms hatt
    exact ⟨ms, best, rfl, hb0, by simpa using hbound, by simpa using hms,
      by simpa using hatt⟩
  | cons city rest ih =>
    intro P ms best hb0 hbound hms hatt
    rw [List.append_cons]
    cases hsim : simToCity normalized city with
    | none =>
      have step : selectLoop normalized (city :: rest) (ms, best) =
          selectLoop normalized rest (ms, best) := by
        simp [selectLoop, hsim]
      rw [step]
      apply ih (P ++ [city]) ms best hb0
      · intro c hc v hv
        rcases List.mem_append.mp hc with hc | hc
        · exact hbound c hc v hv
        · rw [List.mem_singleton.mp hc] at hv
          rw [hsim] at hv
          cases hv
      · rw [List.filter_append, List.filter_singleton]
        have hcity : (decide (simToCity normalized city = some best)) = false := by
          simp [hsim]
        rw [hcity]
        simpa using hms
      · rcases hatt with h | ⟨c, hc, h⟩
        · exact Or.inl h
        · exact Or.inr ⟨c, List.mem_append_left _ hc, h⟩
    | some s =>
      rcases lt_trichotomy best s with hlt | heqc | hgt
      · -- strictly better candidate: the match list is reset to this city
        have step : selectLoop normalized (city :: rest) (ms, best) =
            selectLoop normalized rest ([city], s) := by
          simp [selectLoop, hsim, if_pos hlt]
        rw [step]
        apply ih (P ++ [city]) [city] s (le_of_lt (lt_of_le_of_lt hb0 hlt))
        · intro c hc v hv
          rcases List.mem_append.mp hc with hc | hc
          · exact le_of_lt (lt_of_le_of_lt (hbound c hc v hv) hlt)
          · rw [List.mem_singleton.mp hc] at hv
            rw [hsim] at hv
            rw [Option.some.inj hv]
        · have hPnil : P.filter (fun c => simToCity normalized c = some s) = [] := by
            apply List.filter_eq_nil_iff.mpr
            intro c hc
            simp only [decide_eq_true_eq]
            intro hcs
            have := hbound c hc s hcs
            linarith
          rw [List.filter_append, List.filter_singleton, hPnil]
          have hcity : (decide (simToCity normalized city = some s)) = true := by
            simp [hsim]
          rw [hcity]
          rfl
        · exact Or.inr ⟨city, List.mem_append_right _ (List.mem_singleton_self city), hsim⟩
      · -- equal similarity: the city is appended to the match list
        have step : selectLoop normalized (city :: rest) (ms, best) =
            selectLoop normalized rest (ms ++ [city], best) := by
          simp [selectLoop, hsim, heqc]
        rw [step]
        apply ih (P ++ [city]) (ms ++ [city]) best hb0
        · intro c hc v hv
          rcases List.mem_append.mp hc with hc | hc
          · exact hbound c hc v hv
          · rw [List.mem_singleton.mp hc] at hv
            rw [hsim] at hv
            rw [← Option.some.inj hv, ← heqc]
        · rw [List.filter_append, List.filter_singleton]
          have hcity : (decide (simToCity normalized city = some best)) = true := by
            simp [hsim, heqc]
          rw [hcity]
          rw [hms]
          rfl
        · refine Or.inr ⟨city, List.mem_append_right _ (List.mem_singleton_self city), ?_⟩
          rw [hsim, heqc]
      · -- strictly worse candidate: the state is unchanged
        have step : selectLoop normalized (city :: rest) (ms, best) =
            selectLoop normalized rest (ms, best) := by
          have h1 : ¬(best < s) := not_lt.mpr (le_of_lt hgt)
          have h2 : ¬(s = best) := ne_of_lt hgt
          simp [selectLoop, hsim, h1, h2]
        rw [step]
        apply ih (P ++ [city]) ms best hb0
        · intro c hc v hv
          rcases List.mem_append.mp hc with hc | hc
          · exact hbound c hc v hv
          · rw [List.mem_singleton.mp hc] at hv
            rw [hsim] at hv
            rw [← Option.some.inj hv]
            exact le_of_lt hgt
        · rw [List.filter_append, List.filter_singleton]
          have hcity : (decide (simToCity normalized city = some best)) = false := by
            simp only [hsim, decide_eq_false_iff_not]
            intro hcontra
            exact (ne_of_lt hgt) (Option.some.inj hcontra)
          rw [hcity]
          simpa using hms
        · rcases hatt with h | ⟨c, hc, h⟩
          · exact Or.inl h
          · exact Or.inr ⟨c, List.mem_append_left _ hc, h⟩

/-! ## Claim C2: the Best-Match Selector

The claim asserts that for every non-empty candidate list the selector
returns a member of the list.  The loop starts with `bestSimilarity = 0`
and an empty match list; a candidate whose similarity is negative (the
length penalty makes this possible) updates nothing, so a transcript far
from every candidate leaves the match list empty and `bestMatches[0]` is
JS `undefined` — not a member of the list.  When some candidate scores
at least `0` the claimed behaviour holds, including the tie-break. -/

/-- C2 counterexample: with the non-empty candidate list `["bonn"]` and
the transcript `aaaaaaaaaaaaaa` (fourteen letters, similarity
`-1/2 < 0`), the selector returns JS `undefined` (modelled `none`)
rather than a member of the candidate list. -/
theorem selectBest_empty_matches :
    selectBest (List.replicate 14 'a') ["bonn".data] "bonn".data = none := by decide

/-- C2 amended: whenever some candidate attains a non-negative
similarity (in particular whenever the final `bestSimilarity` is
attained), the selector returns a member of the candidate list; the
returned member is the expected answer when the expected answer is in
the set of candidates attaining the maximal similarity, and otherwise it
is the first candidate of the list attaining the maximal similarity. -/
theorem selectBest_member_tiebreak (normalized expectedWord : List Char)
    (cities : List (List Char))
    (hpos : ∃ c ∈ cities, ∃ v, simToCity normalized c = some v ∧ 0 ≤ v) :
    ∃ m, selectBest normalized cities expectedWord = some m ∧ m ∈ cities ∧
      (∀ c ∈ cities, ∀ v, simToCity normalized c = some v →
        v ≤ bestSim normalized cities) ∧
      (expectedWord ∈ cities.filter
          (fun c => simToCity normalized c = some (bestSim normalized cities)) →
        m = expectedWord) ∧
      (expectedWord ∉ cities.filter
          (fun c => simToCity normalized c = some (bestSim normalized cities)) →
        (cities.filter
          (fun c => simToCity normalized c = some (bestSim normalized cities))).head? =
          some m) := by
  obtain ⟨m0, b, hloop, hb0, hbound, hfilt, hatt⟩ :=
    selectLoop_inv normalized cities [] [] 0 le_rfl
      (by intro c hc; cases hc) rfl (Or.inl rfl)
  have hbs : bestSim normalized cities = b := by
    unfold bestSim
    rw [hloop]
  have hbound' : ∀ c ∈ cities, ∀ v, simToCity normalized c = some v →
      v ≤ bestSim normalized cities := by
    intro c hc v hv
    rw [hbs]
    exact hbound c (by simpa using hc) v hv
  have hm0 : m0 = cities.filter
      (fun c => simToCity normalized c = some (bestSim normalized cities)) := by
    rw [hbs]
    simpa using hfilt
  have hne : m0 ≠ [] := by
    obtain ⟨c, hc, v, hv, hv0⟩ := hpos
    rcases hatt with hb | ⟨c', hc', hsim'⟩
    · have hvb : v ≤ b := hbound c (by simpa using hc) v hv
      have hveq : v = b := le_antisymm hvb (hb ▸ hv0)
      have : c ∈ m0 := by
        rw [hm0, List.mem_filter]
        exact ⟨hc, by simp [hv, hveq, hbs]⟩
      exact List.ne_nil_of_mem this
    · have : c' ∈ m0 := by
        rw [hm0, List.mem_filter]
        exact ⟨by simpa using hc', by simp [hsim', hbs]⟩
      exact List.ne_nil_of_mem this
  have hsel : selectBest normalized cities expectedWord =
      if expectedWord ∈ m0 then some expectedWord else m0.head? := by
    unfold selectBest
    rw [hloop]
  by_cases hmem : expectedWord ∈ m0
  · refine ⟨expectedWord, ?_, ?_, hbound', ?_, ?_⟩
    · rw [hsel, if_pos hmem]
    · exact List.mem_of_mem_filter (hm0 ▸ hmem)
    · intro _
      rfl
    · intro hnot
      exact absurd (hm0 ▸ hmem) hnot
  · refine ⟨m0.head hne, ?_, ?_, hbound', ?_, ?_⟩
    · rw [hsel, if_neg hmem, List.head?_eq_head hne]
    · apply List.mem_of_mem_filter
      rw [← hm0]
      exact List.head_mem hne
    · intro hexp
      exact absurd (hm0 ▸ hexp) hmem
    · intro _
      rw [← hm0, List.head?_eq_head hne]

/-- Witness for `selectBest_member_tiebreak` on the one-candidate list
`["bonn"]` with a perfectly matching transcript. -/
theorem selectBest_member_tiebreak_witness :
    ∃ m, selectBest "bonn".data ["bonn".data] "bonn".data = some m ∧
      m ∈ ["bonn".data] ∧
      (∀ c ∈ ["bonn".data], ∀ v, simToCity "bonn".data c = some v →
        v ≤ bestSim "bonn".data ["bonn".data]) ∧
      ("bonn".data ∈ (["bonn".data]).filter
          (fun c => simToCity "bonn".data c = some (bestSim "bonn".data ["bonn".data])) →
        m = "bonn".data) ∧
      ("bonn".data ∉ (["bonn".data]).filter
          (fun c => simToCity "bonn".data c = some (bestSim "bonn".data ["bonn".data])) →
        ((["bonn".data]).filter
          (fun c => simToCity "bonn".data c = some (bestSim "bonn".data ["bonn".data]))).head? =
          some m) :=
  selectBest_member_tiebreak "bonn".data "bonn".data ["bonn".data]
    ⟨"bonn".data, by decide, 1, by decide, by decide⟩

/-! ## Claim C4: open-vocabulary selection of "bonn" for transcript "bun" -/

/-- Core arithmetic bound: a candidate of normalized length `L ≥ 5` at
edit distance `D ≥ 3` from the three-letter transcript scores strictly
below `9/20` after the length penalty and the cap. -/
theorem sim_penalty_lt (L D : ℕ) (hL : 5 ≤ L) (hD : 3 ≤ D) :
    min (1 : ℚ) (1 - (D : ℚ) / (L : ℚ) - ((L : ℚ) - 3) * (1 / 20)) < 9 / 20 := by
  have hL0 : (0 : ℚ) < (L : ℚ) := by
    have : (5 : ℚ) ≤ (L : ℚ) := by exact_mod_cast hL
    linarith
  have hD3 : (3 : ℚ) ≤ (D : ℚ) := by exact_mod_cast hD
  have hL5 : (5 : ℚ) ≤ (L : ℚ) := by exact_mod_cast hL
  have hdL : (3 : ℚ) / (L : ℚ) ≤ (D : ℚ) / (L : ℚ) :=
    (div_le_div_iff_of_pos_right hL0).mpr hD3
  have hmul : 20 * (L : ℚ) * (1 - 3 / (L : ℚ) - ((L : ℚ) - 3) * (1 / 20)) =
      20 * (L : ℚ) - 60 - (L : ℚ) * ((L : ℚ) - 3) := by
    field_simp
    ring
  have hq : 20 * (L : ℚ) * (1 - 3 / (L : ℚ) - ((L : ℚ) - 3) * (1 / 20)) <
      20 * (L : ℚ) * (9 / 20) := by
    rw [hmul]
    nlinarith [sq_nonneg ((L : ℚ) - 7)]
  have hkey : 1 - (3 : ℚ) / (L : ℚ) - ((L : ℚ) - 3) * (1 / 20) < 9 / 20 :=
    lt_of_mul_lt_mul_left hq (by positivity)
  calc min (1 : ℚ) (1 - (D : ℚ) / (L : ℚ) - ((L : ℚ) - 3) * (1 / 20))
      ≤ 1 - (D : ℚ) / (L : ℚ) - ((L : ℚ) - 3) * (1 / 20) := min_le_right _ _
    _ ≤ 1 - (3 : ℚ) / (L : ℚ) - ((L : ℚ) - 3) * (1 / 20) := by linarith
    _ < 9 / 20 := hkey

/-- Any candidate whose normalized form is strictly longer than `bonn`
(length `> 4`) and whose edit distance to `bun` is strictly larger than
`2` scores strictly below `9/20 = 0.45`, the score of `bonn`. -/
theorem simToCity_long_lt (c : List Char) (v : ℚ)
    (hL : 4 < (normalizeText c).length)
    (hd : 2 < levenshteinDistance "bun".data (normalizeText c))
    (hv : simToCity "bun".data c = some v) : v < 9 / 20 := by
  have h3 : ("bun".data).length = 3 := rfl
  have hmax : max ("bun".data).length (normalizeText c).length =
      (normalizeText c).length := by
    rw [h3]
    omega
  have hbase : baseSimilarityOpt "bun".data (normalizeText c) =
      some (1 - (levenshteinDistance "bun".data (normalizeText c) : ℚ) /
        ((normalizeText c).length : ℚ)) := by
    simp only [baseSimilarityOpt]
    rw [hmax, if_neg (by omega)]
  simp only [simToCity, hbase, h3] at hv
  have hdiff : (((3 : ℕ) : ℤ) - ((normalizeText c).length : ℤ)).natAbs =
      (normalizeText c).length - 3 := by omega
  rw [hdiff] at hv
  have hcast : (((normalizeText c).length - 3 : ℕ) : ℚ) =
      ((normalizeText c).length : ℚ) - 3 := by
    have h3le : 3 ≤ (normalizeText c).length := by omega
    push_cast [Nat.cast_sub h3le]
    ring
  rw [hcast] at hv
  have := sim_penalty_lt (normalizeText c).length
    (levenshteinDistance "bun".data (normalizeText c)) (by omega) (by omega)
  rw [← Option.some.inj hv]
  exact this

/-- C4: in open-vocabulary selection with normalized transcript `bun`
and expected answer `bonn`: `bonn` scores exactly `9/20`; every
candidate whose normalized form is strictly longer than `bonn` and whose
edit distance to `bun` is strictly larger than that of `bonn` (namely
`2`) scores strictly below `bonn`; consequently, on every candidate pool
containing `bonn` whose other members are all such longer worse-scoring
words, the selector returns `bonn`. -/
theorem bonn_selected_over_longer :
    simToCity "bun".data "bonn".data = some (9 / 20) ∧
    (∀ (c : List Char) (v : ℚ), 4 < (normalizeText c).length →
      2 < levenshteinDistance "bun".data (normalizeText c) →
      simToCity "bun".data c = some v → v < 9 / 20) ∧
    (∀ (pool : List (List Char)) (expectedWord : List Char), "bonn".data ∈ pool →
      (∀ c ∈ pool, c = "bonn".data ∨
        (4 < (normalizeText c).length ∧
          2 < levenshteinDistance "bun".data (normalizeText c))) →
      selectBest "bun".data pool expectedWord = some "bonn".data) := by
  have hsimbonn : simToCity "bun".data "bonn".data = some (9 / 20) := by decide
  refine ⟨hsimbonn, fun c v hL hd hv => simToCity_long_lt c v hL hd hv, ?_⟩
  intro pool expectedWord hbonn hpool
  obtain ⟨m0, b, hloop, hb0, hbound, hfilt, hatt⟩ :=
    selectLoop_inv "bun".data pool [] [] 0 le_rfl
      (by intro c hc; cases hc) rfl (Or.inl rfl)
  simp only [List.nil_append] at hbound hfilt hatt
  have hble : (9 / 20 : ℚ) ≤ b := hbound "bonn".data hbonn (9 / 20) hsimbonn
  have hbeq : b = 9 / 20 := by
    rcases hatt with h | ⟨c', hc', hsim'⟩
    · rw [h] at hble
      linarith
    · rcases hpool c' hc' with rfl | ⟨hL, hd⟩
      · exact (Option.some.inj (hsimbonn.symm.trans hsim')).symm
      · have hlt := simToCity_long_lt c' b hL hd hsim'
        linarith
  have hallbonn : ∀ x ∈ m0, x = "bonn".data := by
    intro x hx
    rw [hfilt] at hx
    obtain ⟨hxp, hxs⟩ := List.mem_filter.mp hx
    simp only [decide_eq_true_eq] at hxs
    rcases hpool x hxp with rfl | ⟨hL, hd⟩
    · rfl
    · exfalso
      have hlt := simToCity_long_lt x b hL hd hxs
      rw [hbeq] at hlt
      linarith
  have hbonnm0 : "bonn".data ∈ m0 := by
    rw [hfilt]
    exact List.mem_filter.mpr ⟨hbonn, by simp [hsimbonn, hbeq]⟩
  unfold selectBest
  rw [hloop]
  by_cases hmem : expectedWord ∈ m0
  · rw [if_pos hmem, hallbonn expectedWord hmem]
  · rw [if_neg hmem]
    cases hm : m0 with
    | nil => exact absurd (hm ▸ hbonnm0) (List.not_mem_nil _)
    | cons x xs =>
      have hx : x = "bonn".data := hallbonn x (hm ▸ List.mem_cons_self x xs)
      simp [hx]

/-- Witness for `bonn_selected_over_longer`: the longer `b`-word
`berlin` (normalized length 6, edit distance 4 from `bun`) scores below
`bonn`, and on the pool `[bonn, berlin]` the selector returns `bonn`. -/
theorem bonn_selected_over_longer_witness :
    (simToCity "bun".data "berlin".data = some (11 / 60) ∧ (11 / 60 : ℚ) < 9 / 20) ∧
    selectBest "bun".data ["bonn".data, "berlin".data] "bonn".data =
      some "bonn".data := by
  refine ⟨⟨by decide, ?_⟩, ?_⟩
  · exact bonn_selected_over_longer.2.1 "berlin".data (11 / 60) (by decide)
      (by decide) (by decide)
  · exact bonn_selected_over_longer.2.2 ["bonn".data, "berlin".data] "bonn".data
      (by decide) (by decide)
